import Mathlib

/- Verification development for the orbit-fitting driver (simulate.py):
the parameter grouping and naming machinery, the posterior summarizer,
the Gaussian likelihood, and the control flow of the simulate() driver.
Python strings are modelled as lists of characters. -/

/-- Strings are modelled as lists of characters. -/
abbrev Str := List Char

/-- Decimal digit character for a value below ten, as produced by Python str() on an int digit. -/
def digitChar : ℕ → Char
  | 0 => '0'
  | 1 => '1'
  | 2 => '2'
  | 3 => '3'
  | 4 => '4'
  | 5 => '5'
  | 6 => '6'
  | 7 => '7'
  | 8 => '8'
  | _ => '9'

/-- Fuel-indexed decimal rendering loop, most significant digit first; the fuel bounds
the number of divisions by ten and is structurally consumed. -/
def natToDigitsGo : ℕ → ℕ → Str → Str
  | 0, n, acc => digitChar (n % 10) :: acc
  | fuel + 1, n, acc =>
    if n < 10 then digitChar n :: acc
    else natToDigitsGo fuel (n / 10) (digitChar (n % 10) :: acc)

/-- Decimal rendering of a natural number, as produced by Python str(int). -/
def natToDigits (n : ℕ) : Str := natToDigitsGo n n []

/-- Numeric value of a digit character. -/
def digitVal (c : Char) : ℕ := c.toNat - 48

/-- Value of a string of decimal digits. -/
def digitsVal (t : Str) : ℕ := t.foldl (fun a c => 10 * a + digitVal c) 0

/-- Parse a token consisting solely of decimal digits; any other token fails. -/
def parseNatTok (t : Str) : Option ℕ :=
  if t ≠ [] ∧ t.all Char.isDigit = true then some (digitsVal t) else none

/-- Python int() applied to one underscore-free token: an optional sign followed by a
nonempty run of decimal digits succeeds, anything else raises ValueError (None here). -/
def pyIntTok (t : Str) : Option Int :=
  match t with
  | [] => none
  | c :: rest =>
    if c = '+' then (parseNatTok rest).map (fun n => (n : Int))
    else if c = '-' then (parseNatTok rest).map (fun n => -(n : Int))
    else (parseNatTok (c :: rest)).map (fun n => (n : Int))

/-- Python str.split on the underscore character. -/
def splitUnderscore : Str → List Str
  | [] => [[]]
  | c :: rest =>
    if c = '_' then [] :: splitUnderscore rest
    else
      match splitUnderscore rest with
      | [] => [[c]]
      | t :: ts => (c :: t) :: ts

/-- Python str.join with an underscore separator. -/
def joinUnderscore : List Str → Str
  | [] => []
  | [t] => t
  | t :: ts => t ++ '_' :: joinUnderscore ts

/-- One step of the token loop of parameter_name_to_pmparin_indice: an int()-parsable
token is appended to the indices, any other token to the root parts. -/
def pmparinFoldStep (acc : List Int × List Str) (element : Str) : List Int × List Str :=
  match pyIntTok element with
  | some n => (acc.1 ++ [n], acc.2)
  | none => (acc.1, acc.2 ++ [element])

/-- Embedding of parameter_name_to_pmparin_indice (simulate.py lines 275-289): split the
name on underscores, collect int()-parsable tokens as indices, re-join the remaining
tokens with underscores as the parameter root. -/
def parameter_name_to_pmparin_indice (s : Str) : List Int × Str :=
  let acc := (splitUnderscore s).foldl pmparinFoldStep ([], [])
  (acc.1, joinUnderscore acc.2)

/-- Group string rendering used inside group_elements_by_same_values: an underscore
followed by the underscore-joined decimal indices of the group. -/
def renderGroup (g : List ℕ) : Str := '_' :: joinUnderscore (g.map natToDigits)

/-- Parameter-name construction: the root followed by the rendered group string, as formed
by get_parameters_from_shares. -/
def constructName (root : Str) (g : List ℕ) : Str := root ++ renderGroup g

/-- Insertion of one element into a list according to a boolean comparison. -/
def insertSortedBy {α : Type} (le : α → α → Bool) (x : α) : List α → List α
  | [] => [x]
  | y :: ys => if le x y then x :: y :: ys else y :: insertSortedBy le x ys

/-- Insertion sort according to a boolean comparison: model of Python list.sort, whose
result on a totally ordered list is the unique ascending reordering. -/
def sortBy {α : Type} (le : α → α → Bool) : List α → List α
  | [] => []
  | x :: xs => insertSortedBy le x (sortBy le xs)

/-- Sorting a list of natural numbers ascending. -/
def sortNat : List ℕ → List ℕ := sortBy (fun a b => decide (a ≤ b))

/-- Embedding of np.where(alist == alist[i])[0]: the ascending list of indices j with
alist[j] equal to the given value. -/
def npWhereEq (alist : List Int) (v : Int) : List ℕ :=
  (List.range alist.length).filter (fun j => decide (alist.getD j 0 = v))

/-- Loop of group_elements_by_same_values (simulate.py lines 394-417): todo holds the
indices still to scan, GEI the grouped element indices so far, LoS the rendered groups. -/
def geiLoop (alist : List Int) : List ℕ → List ℕ → List Str → List Str
  | [], _, LoS => LoS
  | i :: todo, GEI, LoS =>
    if i ∉ GEI ∧ 0 ≤ alist.getD i 0 then
      geiLoop alist todo (GEI ++ npWhereEq alist (alist.getD i 0))
        (LoS ++ [renderGroup (sortNat (npWhereEq alist (alist.getD i 0)))])
    else geiLoop alist todo GEI LoS

/-- Embedding of group_elements_by_same_values (simulate.py lines 394-417). -/
def group_elements_by_same_values (alist : List Int) : List Str :=
  geiLoop alist (List.range alist.length) [] []

/-- Position i holds the first appearance (scanning left to right) of a non-negative tag. -/
def isFirstNonnegOcc (alist : List Int) (i : ℕ) : Prop :=
  0 ≤ alist.getD i 0 ∧ alist.getD i 0 ∉ alist.take i

instance (alist : List Int) (i : ℕ) : Decidable (isFirstNonnegOcc alist i) :=
  inferInstanceAs (Decidable (0 ≤ alist.getD i 0 ∧ alist.getD i 0 ∉ alist.take i))

/-- Groups as the specification describes them: one group per distinct non-negative tag
value, in order of first appearance of each tag value scanning left to right, each group
rendered from the ascending list of indices carrying that tag. -/
def groupSpec (alist : List Int) : List Str :=
  ((List.range alist.length).filter (fun i => decide (isFirstNonnegOcc alist i))).map
    (fun i => renderGroup (npWhereEq alist (alist.getD i 0)))

/-- Number of distinct non-negative tag values of one row, counted through their
first-appearance positions. -/
def numDistinctNonnegTags (row : List Int) : ℕ :=
  ((List.range row.length).filter (fun i => decide (isFirstNonnegOcc row i))).length

/-- Parameter roots in the order used by get_parameters_from_shares. -/
def rootsList : List Str :=
  ["dec".data, "incl".data, "mu_a".data, "mu_d".data, "om_asc".data, "px".data, "ra".data]

/-- Python dict key insertion: an already present key keeps its position. -/
def dictInsert (keys : List Str) (k : Str) : List Str :=
  if k ∈ keys then keys else keys ++ [k]

/-- Embedding of get_parameters_from_shares (simulate.py lines 384-393): for every of the
seven roots, group its row and record one parameter name per group (dict key order). -/
def get_parameters_from_shares (shares : List (List Int)) : List Str :=
  (List.range 7).foldl
    (fun params i =>
      (group_elements_by_same_values (shares.getD i [])).foldl
        (fun ps s => dictInsert ps (rootsList.getD i [] ++ s)) params)
    []

/-- Lines of the bayesian_estimates report file, structurally. The correlation and
chi-square constructors exist so that the specified report shape can be stated; the code
embedding below only ever emits header and estimate lines. -/
inductive ReportLine where
  | header : ReportLine
  | estimate (name : Str) (median upper lower : ℚ) : ReportLine
  | corr (a b : Str) (v : ℚ) : ReportLine
  | chisq (v : ℚ) : ReportLine
  | redchisq (v : ℚ) : ReportLine
deriving DecidableEq

/-- Posterior-sample table as read by astropy: named columns in file order. -/
abbrev Table := List (Str × List ℚ)

/-- Column lookup by name (astropy t[p]): data of the first column named p. -/
def tlookup (t : Table) (p : Str) : List ℚ :=
  ((t.find? (fun c => c.1 == p)).map Prod.snd).getD []

/-- Sorting a list of rationals ascending. -/
def sortQ : List ℚ → List ℚ := sortBy (fun a b => decide (a ≤ b))

/-- Modelled from the spec: howfun.sample2median (module howfun is not under src/), the
sample median: middle order statistic, or the mean of the two middle ones. -/
def sample2median (l : List ℚ) : ℚ :=
  let s := sortQ l
  let n := s.length
  if n % 2 = 1 then s.getD (n / 2) 0
  else (s.getD (n / 2 - 1) 0 + s.getD (n / 2) 0) / 2

/-- Modelled from the spec: howfun.sample2median_range (module howfun is not under src/),
the 16th and 84th percentile pair of the samples (order-statistic convention), used with
HowManySigma = 1. -/
def sample2median_range (l : List ℚ) (HowManySigma : ℕ) : ℚ × ℚ :=
  let s := sortQ l
  let n := s.length
  (s.getD (16 * n / 100) 0, s.getD (n - 1 - 16 * n / 100) 0)

/-- Embedding of infer_estimates_from_bilby_results (simulate.py lines 158-171): all
columns except the two trailing bookkeeping ones get one estimate line, median with
upper and lower offsets from the percentile range. -/
def infer_estimates_from_bilby_results (t : Table) : List ReportLine :=
  ReportLine.header ::
    ((t.map Prod.fst).dropLast.dropLast).map (fun p =>
      ReportLine.estimate p (sample2median (tlookup t p))
        ((sample2median_range (tlookup t p) 1).2 - sample2median (tlookup t p))
        (sample2median (tlookup t p) - (sample2median_range (tlookup t p) 1).1))

/-- Parameter columns of a table: all column names except the two trailing ones. -/
def paramsOf (t : Table) : List Str := (t.map Prod.fst).dropLast.dropLast

/-- Extractor of the (median, upper, lower) triple of an estimate line carrying the name. -/
def estimateFor (p : Str) : ReportLine → Option (ℚ × ℚ × ℚ)
  | ReportLine.estimate q m u lo => if q == p then some (m, u, lo) else none
  | _ => none

/-- Reported (median, upper, lower) triple of the first estimate line carrying the name. -/
def reportedEntry (t : Table) (p : Str) : Option (ℚ × ℚ × ℚ) :=
  (infer_estimates_from_bilby_results t).findSome? (estimateFor p)

/-- Test for a correlation-coefficient report line. -/
def isCorrLine : ReportLine → Bool
  | ReportLine.corr _ _ _ => true
  | _ => false

/-- Test for a chi-square or reduced chi-square report line. -/
def isChiLine : ReportLine → Bool
  | ReportLine.chisq _ => true
  | ReportLine.redchisq _ => true
  | _ => false

/-- Test for an estimate report line. -/
def isEstimateLine : ReportLine → Bool
  | ReportLine.estimate _ _ _ _ => true
  | _ => false

/-- Modelled from the spec: the circular point estimate for an ascending-node angle
column, 0 to 360 degrees. The narrowest window covering 68 percent of the samples is
found allowing wraparound at 0/360, and the median of that window (wrapped back into
range) is the point estimate. -/
def circular68Estimate (l : List ℚ) : ℚ :=
  let s := sortQ l
  let n := s.length
  if n = 0 then 0
  else
    let k := (68 * n + 99) / 100
    let wval := fun (j m : ℕ) => if j + m < n then s.getD (j + m) 0 else s.getD (j + m - n) 0 + 360
    let width := fun (j : ℕ) => wval j (k - 1) - wval j 0
    let best := (List.range n).foldl (fun bj j => if width j < width bj then j else bj) 0
    let med := sample2median ((List.range k).map (fun m => wval best m))
    if 360 ≤ med then med - 360 else med

/-- Concrete om_asc posterior column: five samples, four hugging the 0/360 wraparound
boundary and one at 180 degrees. -/
def omascSamples : List ℚ := [1, 1, 180, 359, 359]

/-- Concrete posterior table whose only fitted parameter is an om_asc column. -/
def omascTable : Table :=
  [("om_asc_0".data, omascSamples), ("log_likelihood".data, [0, 0, 0, 0, 0]),
    ("log_prior".data, [0, 0, 0, 0, 0])]

/-- One VLBI measurement series dictionary as built in simulate() (epochs, radecs, errs),
the radecs and errs being the RA/DEC concatenations. -/
structure VLBIRecord where
  epochs : List ℝ
  radecs : List ℝ
  errs : List ℝ

/-- Residuals of one series: observed RA/DEC concatenation minus the prediction of the
external position model. -/
noncomputable def seriesResiduals {T P : Type} (refepoch : ℝ)
    (positions : ℝ → List ℝ → T → ℕ → P → List ℝ)
    (timing : T) (vd : VLBIRecord) (i : ℕ) (parameters : P) : List ℝ :=
  List.zipWith (fun a b => a - b) vd.radecs (positions refepoch vd.epochs timing i parameters)

/-- Weighted sum of squares of one series: np.sum((res/errs)**2). -/
noncomputable def seriesChi {T P : Type} (refepoch : ℝ)
    (positions : ℝ → List ℝ → T → ℕ → P → List ℝ)
    (timing : T) (vd : VLBIRecord) (i : ℕ) (parameters : P) : ℝ :=
  (List.zipWith (fun r e => (r / e) ^ 2)
    (seriesResiduals refepoch positions timing vd i parameters) vd.errs).sum

/-- Embedding of Gaussianlikelihood.log_likelihood (simulate.py lines 373-381): the
accumulated sum over all series of -0.5 times the weighted sum of squared residuals. -/
noncomputable def log_likelihood {T P : Type} [Inhabited T] (refepoch : ℝ)
    (LoD_timing : List T) (LoD_VLBI : List VLBIRecord)
    (positions : ℝ → List ℝ → T → ℕ → P → List ℝ) (parameters : P) : ℝ :=
  (List.range LoD_VLBI.length).foldl
    (fun log_p i =>
      log_p + -0.5 * seriesChi refepoch positions (LoD_timing.getD i default)
        (LoD_VLBI.getD i ⟨[], [], []⟩) i parameters)
    0

/-- Per-series log-likelihood as the specification words it for a run with no
orbital-decay-rate constraints configured: -0.5 times the weighted sum of squared
residuals minus the sum of the logarithms of the errors. -/
noncomputable def claimedLogLikelihood {T P : Type} [Inhabited T] (refepoch : ℝ)
    (LoD_timing : List T) (LoD_VLBI : List VLBIRecord)
    (positions : ℝ → List ℝ → T → ℕ → P → List ℝ) (parameters : P) : ℝ :=
  ((List.range LoD_VLBI.length).map
    (fun i =>
      -0.5 * seriesChi refepoch positions (LoD_timing.getD i default)
          (LoD_VLBI.getD i ⟨[], [], []⟩) i parameters
        - ((LoD_VLBI.getD i ⟨[], [], []⟩).errs.map Real.log).sum)).sum

/-- Environment of a simulate() run: file existence, and the parsed content an existing
file would yield (readpmparin for position files, reflex_motion.read_parfile for
timing files; both abstract the text format, which is outside the claims). -/
structure Env (V T : Type) where
  fileExists : Str → Bool
  readVLBI : Str → V
  readTiming : Str → T

/-- Observable outcome of a simulate() run: an explicit printed abort via sys.exit, an
uncaught file-open error carrying the missing filename, or reaching the sampler stage
with the assembled inputs. -/
inductive SimOutcome (V T : Type) where
  | abortPrint (msg : Str) : SimOutcome V T
  | exception (filename : Str) : SimOutcome V T
  | sampled (pmparins parfiles : List Str) (shares : List (List Int))
      (timing : List (Option T)) (vlbi : List V) : SimOutcome V T
deriving DecidableEq

/-- Python substring containment (needle in hay). -/
def strContains (needle : Str) : Str → Bool
  | [] => needle.isEmpty
  | c :: rest => List.isPrefixOf needle (c :: rest) || strContains needle rest

/-- The token .pmpar.in of the naming convention. -/
def pmparinToken : Str := ".pmpar.in".data

/-- The suffix .par of the naming convention. -/
def parToken : Str := ".par".data

/-- An argument violating the naming convention: containing .pmpar.in and ending in .par. -/
def namingViolation (arg : Str) : Bool :=
  strContains pmparinToken arg && List.isSuffixOf parToken arg

/-- Classification loop of simulate() (lines 84-92): each argument goes to the pmparins,
to the parfiles, or is dropped; a naming violation aborts (modelled as none). -/
def classifyArgs : List Str → List Str → List Str → Option (List Str × List Str)
  | [], pmparins, parfiles => some (pmparins, parfiles)
  | arg :: rest, pmparins, parfiles =>
    if namingViolation arg then none
    else if strContains pmparinToken arg then classifyArgs rest (pmparins ++ [arg]) parfiles
    else if List.isSuffixOf parToken arg || arg.isEmpty then
      classifyArgs rest pmparins (parfiles ++ [arg])
    else classifyArgs rest pmparins parfiles

/-- Default sharing matrix of simulate() (lines 98-102) for NoP series. -/
def defaultShares (NoP : ℕ) : List (List Int) :=
  [(List.range NoP).map Int.ofNat, List.replicate NoP 0, List.replicate NoP 0,
    List.replicate NoP 0, List.replicate NoP 0, List.replicate NoP 0,
    (List.range NoP).map Int.ofNat]

/-- Timing loading loop of simulate() (lines 108-114): an empty parfile name yields the
empty dictionary, otherwise the parfile is opened (error on a missing file). -/
def loadParfiles {V T : Type} (env : Env V T) : List Str → Except Str (List (Option T))
  | [] => Except.ok []
  | pf :: rest =>
    if pf.isEmpty then
      match loadParfiles env rest with
      | Except.error f => Except.error f
      | Except.ok l => Except.ok (none :: l)
    else if env.fileExists pf then
      match loadParfiles env rest with
      | Except.error f => Except.error f
      | Except.ok l => Except.ok (some (env.readTiming pf) :: l)
    else Except.error pf

/-- VLBI loading loop of simulate() (lines 117-127): each pmparin file is opened by
readpmparin (error on a missing file). -/
def loadPmparins {V T : Type} (env : Env V T) : List Str → Except Str (List V)
  | [] => Except.ok []
  | p :: rest =>
    if env.fileExists p then
      match loadPmparins env rest with
      | Except.error f => Except.error f
      | Except.ok l => Except.ok (env.readVLBI p :: l)
    else Except.error p

/-- Message printed when the initsfile is missing (line 76). -/
def initsMissingMsg (f : Str) : Str := f ++ " does not exist; aborting".data

/-- Message printed on a naming-convention violation (lines 86-87). -/
def namingMsg : Str :=
  "arg does not follow naming convention, please follow the docstring! Aborting.".data

/-- Message printed on unequal pmparin and parfile counts (lines 95-96). -/
def countsMsg : Str :=
  "Unequal number of parfiles provided for pmparins. See the docstring for more info. Aborting now.".data

/-- Embedding of the simulate() driver control flow (simulate.py lines 75-156) up to the
sampler invocation: inits existence check, argument classification, count check, default
shares, then data loading; the likelihood construction, priors and sampler run are
reached only in the sampled outcome. -/
def simulate {V T : Type} (env : Env V T) (refepoch : ℚ) (initsfile pmparin parfile : Str)
    (args : List Str) (sharesKw : Option (List (List Int))) : SimOutcome V T :=
  if env.fileExists initsfile = false then SimOutcome.abortPrint (initsMissingMsg initsfile)
  else
    match classifyArgs (pmparin :: parfile :: args) [] [] with
    | none => SimOutcome.abortPrint namingMsg
    | some (pmparins, parfiles) =>
      if pmparins.length ≠ parfiles.length then SimOutcome.abortPrint countsMsg
      else
        let shares := sharesKw.getD (defaultShares pmparins.length)
        match loadParfiles env parfiles with
        | Except.error f => SimOutcome.exception f
        | Except.ok timing =>
          match loadPmparins env pmparins with
          | Except.error f => SimOutcome.exception f
          | Except.ok vlbi => SimOutcome.sampled pmparins parfiles shares timing vlbi

/-- The outcome terminates the run naming the given file: either the printed abort message
mentions it, or it is the filename of the uncaught file-open error. -/
def namesFile {V T : Type} : SimOutcome V T → Str → Prop
  | SimOutcome.abortPrint msg, f => f <:+: msg
  | SimOutcome.exception g, f => g = f
  | SimOutcome.sampled _ _ _ _ _, _ => False

/-- The name is one of the input files of the run: the initsfile, a classified pmparin
file, or a classified non-empty parfile. -/
def isInputFile (initsfile : Str) (pmparins parfiles : List Str) (f : Str) : Prop :=
  f = initsfile ∨ f ∈ pmparins ∨ (f ∈ parfiles ∧ f ≠ [])

/-- Environment in which every file exists (contents are trivial). -/
def allFilesEnv : Env Unit Unit := ⟨fun _ => true, fun _ => (), fun _ => ()⟩

/-- Environment in which exactly the file b.pmpar.in is missing. -/
def missingOneEnv : Env Unit Unit :=
  ⟨fun s => !(s == "b.pmpar.in".data), fun _ => (), fun _ => ()⟩

lemma digitChar_isDigit : ∀ d, d < 10 → (digitChar d).isDigit = true := by decide

lemma digitVal_digitChar : ∀ d, d < 10 → digitVal (digitChar d) = d := by decide

lemma natToDigitsGo_append : ∀ fuel n acc, natToDigitsGo fuel n acc = natToDigitsGo fuel n [] ++ acc := by
  intro fuel
  induction fuel with
  | zero => intro n acc; rw [natToDigitsGo, natToDigitsGo]; rfl
  | succ fuel ih =>
    intro n acc
    by_cases h : n < 10
    · rw [natToDigitsGo, if_pos h, natToDigitsGo, if_pos h]
      rfl
    · rw [natToDigitsGo, if_neg h, ih (n / 10) (digitChar (n % 10) :: acc)]
      conv_rhs => rw [natToDigitsGo, if_neg h, ih (n / 10) (digitChar (n % 10) :: [])]
      simp

lemma natToDigitsGo_fuel : ∀ f1 f2 n acc, n ≤ f1 → n ≤ f2 →
    natToDigitsGo f1 n acc = natToDigitsGo f2 n acc := by
  intro f1
  induction f1 with
  | zero =>
    intro f2 n acc h1 _
    have hn : n = 0 := by omega
    subst hn
    cases f2 with
    | zero => rfl
    | succ f2 => rw [natToDigitsGo, natToDigitsGo, if_pos (by omega)]
  | succ f1 ih =>
    intro f2 n acc h1 h2
    cases f2 with
    | zero =>
      have hn : n = 0 := by omega
      subst hn
      rw [natToDigitsGo, natToDigitsGo, if_pos (by omega)]
    | succ f2 =>
      by_cases h : n < 10
      · rw [natToDigitsGo, if_pos h, natToDigitsGo, if_pos h]
      · have hd : n / 10 < n := Nat.div_lt_self (by omega) (by omega)
        rw [natToDigitsGo, if_neg h, natToDigitsGo, if_neg h,
          ih f2 (n / 10) (digitChar (n % 10) :: acc) (by omega) (by omega)]

lemma natToDigits_of_lt (n : ℕ) (h : n < 10) : natToDigits n = [digitChar n] := by
  rw [natToDigits]
  cases n with
  | zero => rfl
  | succ m => rw [natToDigitsGo, if_pos h]

lemma natToDigits_of_ge (n : ℕ) (h : ¬ n < 10) :
    natToDigits n = natToDigits (n / 10) ++ [digitChar (n % 10)] := by
  obtain ⟨m, rfl⟩ : ∃ m, n = m + 1 := ⟨n - 1, by omega⟩
  have hd : (m + 1) / 10 < m + 1 := Nat.div_lt_self (by omega) (by omega)
  rw [natToDigits, natToDigitsGo, if_neg h,
    natToDigitsGo_fuel m ((m + 1) / 10) ((m + 1) / 10) (digitChar ((m + 1) % 10) :: [])
      (by omega) le_rfl,
    natToDigitsGo_append ((m + 1) / 10) ((m + 1) / 10) (digitChar ((m + 1) % 10) :: []),
    natToDigits]

lemma digitsVal_append_singleton (t : Str) (c : Char) :
    digitsVal (t ++ [c]) = 10 * digitsVal t + digitVal c := by
  rw [digitsVal, List.foldl_append]
  rfl

lemma digitsVal_natToDigits : ∀ n, digitsVal (natToDigits n) = n := by
  intro n
  induction n using Nat.strong_induction_on with
  | _ n ih =>
    by_cases h : n < 10
    · rw [natToDigits_of_lt n h, digitsVal]
      simp [digitVal_digitChar n h]
    · rw [natToDigits_of_ge n h, digitsVal_append_singleton,
        ih (n / 10) (Nat.div_lt_self (by omega) (by omega)),
        digitVal_digitChar (n % 10) (by omega)]
      omega

lemma natToDigits_all_digit : ∀ n, ∀ c ∈ natToDigits n, c.isDigit = true := by
  intro n
  induction n using Nat.strong_induction_on with
  | _ n ih =>
    by_cases h : n < 10
    · rw [natToDigits_of_lt n h]
      intro c hc
      simp at hc
      subst hc
      exact digitChar_isDigit n h
    · rw [natToDigits_of_ge n h]
      intro c hc
      rcases List.mem_append.mp hc with h1 | h1
      · exact ih (n / 10) (Nat.div_lt_self (by omega) (by omega)) c h1
      · simp at h1
        subst h1
        exact digitChar_isDigit (n % 10) (by omega)

lemma natToDigits_ne_nil (n : ℕ) : natToDigits n ≠ [] := by
  by_cases h : n < 10
  · rw [natToDigits_of_lt n h]
    simp
  · rw [natToDigits_of_ge n h]
    simp

lemma isDigit_ne_sign (c : Char) (h : c.isDigit = true) : c ≠ '+' ∧ c ≠ '-' := by
  constructor <;> rintro rfl <;> simp [Char.isDigit] at h

lemma parseNatTok_natToDigits (n : ℕ) : parseNatTok (natToDigits n) = some n := by
  rw [parseNatTok, if_pos, digitsVal_natToDigits]
  refine ⟨natToDigits_ne_nil n, ?_⟩
  rw [List.all_eq_true]
  exact natToDigits_all_digit n

lemma pyIntTok_natToDigits (n : ℕ) : pyIntTok (natToDigits n) = some (Int.ofNat n) := by
  obtain ⟨c, rest, hcr⟩ : ∃ c rest, natToDigits n = c :: rest := by
    cases hh : natToDigits n with
    | nil => exact absurd hh (natToDigits_ne_nil n)
    | cons c rest => exact ⟨c, rest, rfl⟩
  have hd : c.isDigit = true := natToDigits_all_digit n c (by rw [hcr]; simp)
  have hsign := isDigit_ne_sign c hd
  rw [hcr, pyIntTok, if_neg hsign.1, if_neg hsign.2, ← hcr, parseNatTok_natToDigits]
  rfl

lemma parseNatTok_none_of_digitFree (t : Str) (h : ∀ c ∈ t, c.isDigit = false) :
    parseNatTok t = none := by
  cases t with
  | nil => rw [parseNatTok, if_neg]; simp
  | cons c rest =>
    rw [parseNatTok, if_neg]
    rintro ⟨-, hall⟩
    rw [List.all_eq_true] at hall
    have := hall c (by simp)
    rw [h c (by simp)] at this
    exact absurd this (by simp)

lemma pyIntTok_none_of_digitFree (t : Str) (h : ∀ c ∈ t, c.isDigit = false) :
    pyIntTok t = none := by
  cases t with
  | nil => rfl
  | cons c rest =>
    have hrest : ∀ d ∈ rest, d.isDigit = false := fun d hd => h d (by simp [hd])
    rw [pyIntTok]
    by_cases h1 : c = '+'
    · rw [if_pos h1, parseNatTok_none_of_digitFree rest hrest]; rfl
    · rw [if_neg h1]
      by_cases h2 : c = '-'
      · rw [if_pos h2, parseNatTok_none_of_digitFree rest hrest]; rfl
      · rw [if_neg h2, parseNatTok_none_of_digitFree (c :: rest) h]; rfl

lemma splitUnderscore_ne_nil (s : Str) : splitUnderscore s ≠ [] := by
  cases s with
  | nil => simp [splitUnderscore]
  | cons c rest =>
    rw [splitUnderscore]
    by_cases h : c = '_'
    · simp [h]
    · rw [if_neg h]
      cases splitUnderscore rest with
      | nil => simp
      | cons t ts => simp

lemma splitUnderscore_append (a b : Str) :
    splitUnderscore (a ++ '_' :: b) = splitUnderscore a ++ splitUnderscore b := by
  induction a with
  | nil =>
    rw [List.nil_append]
    conv_lhs => rw [splitUnderscore]
    rw [if_pos rfl]
    rfl
  | cons c rest ih =>
    rw [List.cons_append]
    by_cases h : c = '_'
    · rw [splitUnderscore, if_pos h, ih]
      conv_rhs => rw [splitUnderscore, if_pos h]
      rfl
    · rw [splitUnderscore, if_neg h, ih]
      conv_rhs => rw [splitUnderscore, if_neg h]
      cases hh : splitUnderscore rest with
      | nil => exact absurd hh (splitUnderscore_ne_nil rest)
      | cons t ts => simp

lemma splitUnderscore_no_underscore (t : Str) (h : '_' ∉ t) : splitUnderscore t = [t] := by
  induction t with
  | nil => rfl
  | cons c rest ih =>
    rw [splitUnderscore]
    have hc : c ≠ '_' := fun hc => h (by simp [hc])
    rw [if_neg hc, ih (fun hm => h (by simp [hm]))]

lemma splitUnderscore_joinUnderscore (toks : List Str) (hne : toks ≠ [])
    (h : ∀ t ∈ toks, '_' ∉ t) :
    splitUnderscore (joinUnderscore toks) = toks := by
  induction toks with
  | nil => exact absurd rfl hne
  | cons t ts ih =>
    cases ts with
    | nil =>
      rw [joinUnderscore, splitUnderscore_no_underscore t (h t (by simp))]
    | cons t2 ts2 =>
      rw [joinUnderscore, splitUnderscore_append,
        splitUnderscore_no_underscore t (h t (by simp)),
        ih (List.cons_ne_nil t2 ts2) (fun u hu => h u (by simp [hu]))]
      · rfl
      · exact fun hc => List.noConfusion hc

lemma joinUnderscore_cons (t : Str) (ts : List Str) (h : ts ≠ []) :
    joinUnderscore (t :: ts) = t ++ '_' :: joinUnderscore ts := by
  cases ts with
  | nil => exact absurd rfl h
  | cons t2 ts2 =>
    rw [joinUnderscore]
    exact fun hc => List.noConfusion hc

lemma joinUnderscore_splitUnderscore (s : Str) : joinUnderscore (splitUnderscore s) = s := by
  induction s with
  | nil => rfl
  | cons c rest ih =>
    rw [splitUnderscore]
    by_cases h : c = '_'
    · rw [if_pos h, joinUnderscore_cons [] (splitUnderscore rest) (splitUnderscore_ne_nil rest),
        ih, h]
      rfl
    · rw [if_neg h]
      cases hh : splitUnderscore rest with
      | nil => exact absurd hh (splitUnderscore_ne_nil rest)
      | cons t ts =>
        rw [hh] at ih
        cases ts with
        | nil =>
          rw [joinUnderscore] at ih ⊢
          rw [← ih]
        | cons t2 ts2 =>
          rw [joinUnderscore_cons t (t2 :: ts2) (List.cons_ne_nil t2 ts2)] at ih
          rw [joinUnderscore_cons (c :: t) (t2 :: ts2) (List.cons_ne_nil t2 ts2), ← ih]
          rfl

lemma splitUnderscore_mem (s : Str) : ∀ t ∈ splitUnderscore s, ∀ c ∈ t, c ∈ s := by
  induction s with
  | nil =>
    intro t ht c hc
    simp [splitUnderscore] at ht
    subst ht
    simp at hc
  | cons x rest ih =>
    intro t ht c hc
    rw [splitUnderscore] at ht
    by_cases h : x = '_'
    · rw [if_pos h] at ht
      rcases List.mem_cons.mp ht with h1 | h1
      · subst h1; simp at hc
      · exact List.mem_cons_of_mem x (ih t h1 c hc)
    · rw [if_neg h] at ht
      cases hh : splitUnderscore rest with
      | nil => exact absurd hh (splitUnderscore_ne_nil rest)
      | cons u us =>
        rw [hh] at ht
        rcases List.mem_cons.mp ht with h1 | h1
        · subst h1
          rcases List.mem_cons.mp hc with h2 | h2
          · simp [h2]
          · exact List.mem_cons_of_mem x (ih u (by rw [hh]; simp) c h2)
        · exact List.mem_cons_of_mem x (ih t (by rw [hh]; simp [h1]) c hc)

lemma foldStep_none (toks : List Str) (h : ∀ t ∈ toks, pyIntTok t = none) :
    ∀ acc : List Int × List Str,
      toks.foldl pmparinFoldStep acc = (acc.1, acc.2 ++ toks) := by
  induction toks with
  | nil => intro acc; simp
  | cons t ts ih =>
    intro acc
    rw [List.foldl_cons, pmparinFoldStep, h t (by simp),
      ih (fun u hu => h u (by simp [hu])) (acc.1, acc.2 ++ [t])]
    simp

lemma foldStep_nats (ns : List ℕ) :
    ∀ acc : List Int × List Str,
      (ns.map natToDigits).foldl pmparinFoldStep acc =
        (acc.1 ++ ns.map Int.ofNat, acc.2) := by
  induction ns with
  | nil => intro acc; simp
  | cons n ns ih =>
    intro acc
    rw [List.map_cons, List.foldl_cons, pmparinFoldStep, pyIntTok_natToDigits,
      ih ((acc.1 ++ [Int.ofNat n], acc.2))]
    simp

lemma underscore_not_in_natToDigits (m : ℕ) : '_' ∉ natToDigits m := by
  intro hu
  have := natToDigits_all_digit m '_' hu
  exact absurd this (by decide)

lemma parse_constructName (root : Str) (hroot : ∀ c ∈ root, c.isDigit = false)
    (g : List ℕ) (hg : g ≠ []) :
    parameter_name_to_pmparin_indice (constructName root g) =
      (g.map Int.ofNat, root) := by
  have hnou : ∀ t ∈ g.map natToDigits, '_' ∉ t := by
    intro t ht
    rcases List.mem_map.mp ht with ⟨m, _, rfl⟩
    exact underscore_not_in_natToDigits m
  have hmapne : g.map natToDigits ≠ [] := by
    intro hnil
    exact hg (List.map_eq_nil_iff.mp hnil)
  have hsplit : splitUnderscore (constructName root g) =
      splitUnderscore root ++ g.map natToDigits := by
    rw [constructName, renderGroup, splitUnderscore_append,
      splitUnderscore_joinUnderscore (g.map natToDigits) hmapne hnou]
  have hrtoks : ∀ t ∈ splitUnderscore root, pyIntTok t = none := by
    intro t ht
    exact pyIntTok_none_of_digitFree t (fun c hc => hroot c (splitUnderscore_mem root t ht c hc))
  simp only [parameter_name_to_pmparin_indice]
  rw [hsplit, List.foldl_append, foldStep_none (splitUnderscore root) hrtoks, foldStep_nats]
  simp [joinUnderscore_splitUnderscore]

lemma renderGroup_inj (g1 g2 : List ℕ) (h1 : g1 ≠ []) (h2 : g2 ≠ [])
    (h : renderGroup g1 = renderGroup g2) : g1 = g2 := by
  have e1 := parse_constructName [] (by simp) g1 h1
  have e2 := parse_constructName [] (by simp) g2 h2
  rw [constructName, List.nil_append] at e1 e2
  rw [h, e2] at e1
  have h12 : g2.map Int.ofNat = g1.map Int.ofNat := congrArg Prod.fst e1
  exact (List.map_injective_iff.mpr (fun a b hab => Int.ofNat.inj hab) h12).symm

/-- Claim C4 counterexample: for the digit-free root px and the empty (sorted) index
list, the constructed name is px followed by a bare underscore, and parsing it returns
the root px followed by an underscore instead of the original root, so parse is not an
exact inverse of name construction on empty index lists. -/
theorem C4_counterexample_empty_indices :
    parameter_name_to_pmparin_indice (constructName "px".data []) =
        (([] : List Int), "px_".data) ∧
      parameter_name_to_pmparin_indice (constructName "px".data []) ≠
        (([] : List Int), "px".data) := by
  constructor
  · decide
  · decide

/-- Claim C4 (amended): for every root string containing no digits and every nonempty
sorted list of non-negative integers, parsing the name constructed by the grouping
operation returns exactly the original index list and the original root. -/
theorem C4_parse_inverts_construct (root : Str) (hroot : ∀ c ∈ root, c.isDigit = false)
    (g : List ℕ) (hg : g ≠ []) (hsorted : List.Pairwise (· ≤ ·) g) :
    parameter_name_to_pmparin_indice (constructName root g) = (g.map Int.ofNat, root) :=
  parse_constructName root hroot g hg

/-- Witness for C4: the docstring example mu_a_0_2_3 parses back to indices 0, 2, 3 and
root mu_a. -/
theorem C4_witness :
    (∀ c ∈ "mu_a".data, c.isDigit = false) ∧ (([0, 2, 3] : List ℕ) ≠ []) ∧
      List.Pairwise (· ≤ ·) ([0, 2, 3] : List ℕ) ∧
      parameter_name_to_pmparin_indice (constructName "mu_a".data [0, 2, 3]) =
        (([0, 2, 3] : List ℕ).map Int.ofNat, "mu_a".data) :=
  ⟨by decide, by decide, by decide,
    C4_parse_inverts_construct "mu_a".data (by decide) [0, 2, 3] (by decide) (by decide)⟩

lemma insertSortedBy_of_forall_le {α : Type} (le : α → α → Bool) (x : α) (l : List α)
    (h : ∀ y ∈ l, le x y = true) : insertSortedBy le x l = x :: l := by
  cases l with
  | nil => rfl
  | cons y ys => rw [insertSortedBy, if_pos (h y (by simp))]

lemma sortBy_of_pairwise {α : Type} (le : α → α → Bool) (l : List α)
    (h : List.Pairwise (fun a b => le a b = true) l) : sortBy le l = l := by
  induction l with
  | nil => rfl
  | cons x xs ih =>
    rcases List.pairwise_cons.mp h with ⟨hx, hxs⟩
    rw [sortBy, ih hxs, insertSortedBy_of_forall_le le x xs hx]

lemma sortNat_of_pairwise (l : List ℕ) (h : List.Pairwise (· ≤ ·) l) : sortNat l = l := by
  rw [sortNat, sortBy_of_pairwise]
  exact h.imp (fun hab => decide_eq_true hab)

lemma npWhereEq_mem (alist : List Int) (v : Int) (j : ℕ) :
    j ∈ npWhereEq alist v ↔ j < alist.length ∧ alist.getD j 0 = v := by
  rw [npWhereEq, List.mem_filter, List.mem_range]
  simp

lemma npWhereEq_pairwise (alist : List Int) (v : Int) :
    List.Pairwise (· ≤ ·) (npWhereEq alist v) :=
  ((List.pairwise_lt_range alist.length).filter _).imp Nat.le_of_lt

lemma mem_take_succ (l : List Int) (i : ℕ) (hi : i < l.length) (a : Int) :
    a ∈ l.take (i + 1) ↔ a ∈ l.take i ∨ a = l.getD i 0 := by
  have hD : l.getD i 0 = l[i] := by
    rw [List.getD_eq_getElem?_getD, List.getElem?_eq_getElem hi]
    rfl
  have htake : l.take (i + 1) = l.take i ++ [l[i]] := by
    rw [List.take_succ, List.getElem?_eq_getElem hi]
    rfl
  rw [htake, hD, List.mem_append, List.mem_singleton]

lemma geiLoop_spec (alist : List Int) (n : ℕ) :
    ∀ i, i + n = alist.length →
    ∀ (GEI : List ℕ) (LoS : List Str),
    (∀ j, j < alist.length → (j ∈ GEI ↔ 0 ≤ alist.getD j 0 ∧ alist.getD j 0 ∈ alist.take i)) →
    geiLoop alist (List.range' i n) GEI LoS =
      LoS ++ ((List.range' i n).filter (fun k => decide (isFirstNonnegOcc alist k))).map
        (fun k => renderGroup (npWhereEq alist (alist.getD k 0))) := by
  induction n with
  | zero =>
    intro i hin GEI LoS hGEI
    simp [geiLoop]
  | succ n ih =>
    intro i hin GEI LoS hGEI
    have hiN : i < alist.length := by omega
    have hrange : List.range' i (n + 1) = i :: List.range' (i + 1) n := rfl
    rw [hrange, geiLoop]
    by_cases hbr : i ∉ GEI ∧ 0 ≤ alist.getD i 0
    · rw [if_pos hbr]
      have hfirst : isFirstNonnegOcc alist i :=
        ⟨hbr.2, fun hmem => hbr.1 ((hGEI i hiN).mpr ⟨hbr.2, hmem⟩)⟩
      have hGEI2 : ∀ j, j < alist.length →
          (j ∈ GEI ++ npWhereEq alist (alist.getD i 0) ↔
            0 ≤ alist.getD j 0 ∧ alist.getD j 0 ∈ alist.take (i + 1)) := by
        intro j hj
        rw [List.mem_append, hGEI j hj, npWhereEq_mem, mem_take_succ alist i hiN]
        constructor
        · rintro (⟨ha, hb⟩ | ⟨ha, hb⟩)
          · exact ⟨ha, Or.inl hb⟩
          · refine ⟨?_, Or.inr hb⟩
            rw [hb]
            exact hbr.2
        · rintro ⟨ha, hb | hb⟩
          · exact Or.inl ⟨ha, hb⟩
          · exact Or.inr ⟨hj, hb⟩
      rw [ih (i + 1) (by omega) (GEI ++ npWhereEq alist (alist.getD i 0))
        (LoS ++ [renderGroup (sortNat (npWhereEq alist (alist.getD i 0)))]) hGEI2,
        sortNat_of_pairwise _ (npWhereEq_pairwise alist (alist.getD i 0)),
        List.filter_cons]
      simp [hfirst]
    · rw [if_neg hbr]
      have hnotfirst : ¬ isFirstNonnegOcc alist i := by
        intro hf
        rcases not_and_or.mp hbr with h1 | h1
        · rw [not_not] at h1
          exact hf.2 ((hGEI i hiN).mp h1).2
        · exact h1 hf.1
      have hGEI2 : ∀ j, j < alist.length →
          (j ∈ GEI ↔ 0 ≤ alist.getD j 0 ∧ alist.getD j 0 ∈ alist.take (i + 1)) := by
        intro j hj
        rw [hGEI j hj, mem_take_succ alist i hiN]
        constructor
        · rintro ⟨ha, hb⟩
          exact ⟨ha, Or.inl hb⟩
        · rintro ⟨ha, hb | hb⟩
          · exact ⟨ha, hb⟩
          · rcases not_and_or.mp hbr with h3 | h3
            · rw [not_not] at h3
              have h4 := (hGEI i hiN).mp h3
              refine ⟨ha, ?_⟩
              rw [hb]
              exact h4.2
            · rw [hb] at ha
              exact absurd ha h3
      rw [ih (i + 1) (by omega) GEI LoS hGEI2, List.filter_cons]
      simp [hnotfirst]

lemma group_elements_eq_groupSpec (alist : List Int) :
    group_elements_by_same_values alist = groupSpec alist := by
  rw [group_elements_by_same_values, groupSpec, List.range_eq_range']
  have h := geiLoop_spec alist alist.length 0 (by omega) [] [] (by intro j hj; simp)
  rw [h, List.nil_append]

/-- Claim C2: for every row of integer group tags, group_elements_by_same_values returns
one group per distinct non-negative tag value, in order of first appearance of each tag
value scanning left to right, each group being the ascending list of the series indices
carrying that tag, rendered as an underscore followed by the underscore-joined decimal
indices; indices with a negative tag appear in no group. -/
theorem C2_group_by_first_appearance (alist : List Int) :
    group_elements_by_same_values alist = groupSpec alist :=
  group_elements_eq_groupSpec alist

lemma dictInsert_foldl_of_nodup (ks : List Str) :
    ∀ acc : List Str, (∀ k ∈ ks, k ∉ acc) → ks.Nodup →
      ks.foldl dictInsert acc = acc ++ ks := by
  induction ks with
  | nil => intro acc _ _; simp
  | cons k ks ih =>
    intro acc h hn
    have hnotin : ∀ k2 ∈ ks, k2 ∉ acc ++ [k] := by
      intro k2 hk2
      rw [List.mem_append, List.mem_singleton]
      rintro (h1 | h1)
      · exact h k2 (by simp [hk2]) h1
      · subst h1
        exact (List.nodup_cons.mp hn).1 hk2
    rw [List.foldl_cons, dictInsert, if_neg (h k (by simp)),
      ih (acc ++ [k]) hnotin (List.nodup_cons.mp hn).2]
    simp

lemma foldl_flatMap {α β γ : Type} (f : α → List β) (g : γ → β → γ) (l : List α) :
    ∀ acc : γ, (l.flatMap f).foldl g acc = l.foldl (fun a i => (f i).foldl g a) acc := by
  induction l with
  | nil => intro acc; simp
  | cons x xs ih =>
    intro acc
    rw [List.flatMap_cons, List.foldl_append, List.foldl_cons, ih]

lemma get_parameters_eq_foldl (shares : List (List Int)) :
    get_parameters_from_shares shares =
      ((List.range 7).flatMap (fun i =>
        (group_elements_by_same_values (shares.getD i [])).map
          (fun s => rootsList.getD i [] ++ s))).foldl dictInsert [] := by
  rw [get_parameters_from_shares, foldl_flatMap]
  congr 1
  funext a i
  rw [List.foldl_map]

lemma mem_group_elements (row : List Int) (s : Str)
    (hs : s ∈ group_elements_by_same_values row) :
    ∃ g : List ℕ, g ≠ [] ∧ s = renderGroup g := by
  rw [group_elements_eq_groupSpec, groupSpec] at hs
  rcases List.mem_map.mp hs with ⟨k, hk, rfl⟩
  rcases List.mem_filter.mp hk with ⟨hkr, _⟩
  refine ⟨npWhereEq row (row.getD k 0), ?_, rfl⟩
  have hkmem : k ∈ npWhereEq row (row.getD k 0) :=
    (npWhereEq_mem row (row.getD k 0) k).mpr ⟨List.mem_range.mp hkr, rfl⟩
  intro hnil
  rw [hnil] at hkmem
  simp at hkmem

lemma getD_mem_take (l : List Int) (i j : ℕ) (hij : i < j) (hi : i < l.length) :
    l.getD i 0 ∈ l.take j := by
  have hD : l.getD i 0 = l[i] := by
    rw [List.getD_eq_getElem?_getD, List.getElem?_eq_getElem hi]
    rfl
  have hlen : i < (l.take j).length := by
    rw [List.length_take]
    omega
  have hg : (l.take j)[i] = l[i] := List.getElem_take l
  rw [hD, ← hg]
  exact List.getElem_mem hlen

lemma group_elements_nodup (row : List Int) :
    (group_elements_by_same_values row).Nodup := by
  rw [group_elements_eq_groupSpec, groupSpec]
  refine List.Nodup.map_on ?_ ((List.nodup_range row.length).filter _)
  intro k1 hk1 k2 hk2 heq
  rcases List.mem_filter.mp hk1 with ⟨hk1r, hd1⟩
  rcases List.mem_filter.mp hk2 with ⟨hk2r, hd2⟩
  rw [List.mem_range] at hk1r hk2r
  have h1 : isFirstNonnegOcc row k1 := of_decide_eq_true hd1
  have h2 : isFirstNonnegOcc row k2 := of_decide_eq_true hd2
  have hm1 : k1 ∈ npWhereEq row (row.getD k1 0) :=
    (npWhereEq_mem row (row.getD k1 0) k1).mpr ⟨hk1r, rfl⟩
  have hm2 : k2 ∈ npWhereEq row (row.getD k2 0) :=
    (npWhereEq_mem row (row.getD k2 0) k2).mpr ⟨hk2r, rfl⟩
  have hne1 : npWhereEq row (row.getD k1 0) ≠ [] := by
    intro hnil; rw [hnil] at hm1; simp at hm1
  have hne2 : npWhereEq row (row.getD k2 0) ≠ [] := by
    intro hnil; rw [hnil] at hm2; simp at hm2
  have hgeq : npWhereEq row (row.getD k1 0) = npWhereEq row (row.getD k2 0) :=
    renderGroup_inj _ _ hne1 hne2 heq
  have hval : row.getD k1 0 = row.getD k2 0 := by
    have : k1 ∈ npWhereEq row (row.getD k2 0) := by rw [← hgeq]; exact hm1
    exact ((npWhereEq_mem row (row.getD k2 0) k1).mp this).2
  by_contra hne
  rcases Nat.lt_or_ge k1 k2 with hlt | hge
  · exact h2.2 (hval ▸ getD_mem_take row k1 k2 hlt hk1r)
  · have hlt2 : k2 < k1 := by omega
    exact h1.2 (hval ▸ getD_mem_take row k2 k1 hlt2 hk2r)

lemma rootsList_digitFree : ∀ i, i < 7 → ∀ c ∈ rootsList.getD i [], c.isDigit = false := by
  decide

lemma rootsList_getD_inj :
    ∀ i, i < 7 → ∀ j, j < 7 → rootsList.getD i [] = rootsList.getD j [] → i = j := by
  decide

lemma paramName_determines_root (i j : ℕ) (hi : i < 7) (hj : j < 7)
    (g1 g2 : List ℕ) (h1 : g1 ≠ []) (h2 : g2 ≠ [])
    (heq : rootsList.getD i [] ++ renderGroup g1 = rootsList.getD j [] ++ renderGroup g2) :
    i = j := by
  have e1 := parse_constructName (rootsList.getD i []) (rootsList_digitFree i hi) g1 h1
  have e2 := parse_constructName (rootsList.getD j []) (rootsList_digitFree j hj) g2 h2
  rw [constructName] at e1 e2
  rw [heq, e2] at e1
  exact rootsList_getD_inj i hi j hj (congrArg Prod.snd e1).symm

lemma paramNames_nodup (shares : List (List Int)) :
    ((List.range 7).flatMap (fun i =>
      (group_elements_by_same_values (shares.getD i [])).map
        (fun s => rootsList.getD i [] ++ s))).Nodup := by
  rw [List.nodup_flatMap]
  constructor
  · intro i _
    refine List.Nodup.map_on ?_ (group_elements_nodup (shares.getD i []))
    intro s1 _ s2 _ heq
    exact List.append_cancel_left heq
  · refine (List.pairwise_lt_range 7).imp_of_mem ?_
    intro i j hi hj hij n hni hnj
    rw [List.mem_range] at hi hj
    rcases List.mem_map.mp hni with ⟨s1, hs1, he1⟩
    rcases List.mem_map.mp hnj with ⟨s2, hs2, he2⟩
    rcases mem_group_elements _ s1 hs1 with ⟨g1, hg1, rfl⟩
    rcases mem_group_elements _ s2 hs2 with ⟨g2, hg2, rfl⟩
    have := paramName_determines_root i j hi hj g1 g2 hg1 hg2 (he1.trans he2.symm)
    omega

lemma group_length_eq (row : List Int) :
    (group_elements_by_same_values row).length = numDistinctNonnegTags row := by
  rw [group_elements_eq_groupSpec, groupSpec, numDistinctNonnegTags, List.length_map]

/-- Claim C3: for every 7-row sharing matrix, get_parameters_from_shares returns exactly
the names root followed by group string, over every root and every group of its row, and
its size is the sum over the seven roots of the number of distinct non-negative tags of
that root's row. -/
theorem C3_free_parameter_names (shares : List (List Int)) (h7 : shares.length = 7) :
    get_parameters_from_shares shares =
        (List.range 7).flatMap (fun i =>
          (group_elements_by_same_values (shares.getD i [])).map
            (fun s => rootsList.getD i [] ++ s)) ∧
      (get_parameters_from_shares shares).length =
        ((List.range 7).map (fun i => numDistinctNonnegTags (shares.getD i []))).sum := by
  have heq : get_parameters_from_shares shares =
      (List.range 7).flatMap (fun i =>
        (group_elements_by_same_values (shares.getD i [])).map
          (fun s => rootsList.getD i [] ++ s)) := by
    rw [get_parameters_eq_foldl shares,
      dictInsert_foldl_of_nodup _ [] (fun k _ => List.not_mem_nil k) (paramNames_nodup shares)]
    simp
  refine ⟨heq, ?_⟩
  rw [heq, List.length_flatMap]
  refine congrArg List.sum (List.map_congr_left ?_)
  intro i _
  show ((group_elements_by_same_values (shares.getD i [])).map
    (fun s => rootsList.getD i [] ++ s)).length = _
  rw [List.length_map, group_length_eq]

/-- Witness for C3: two series sharing parallax only (px row 0,0 and every other row
0,1) yield exactly the thirteen names with a single px_0_1 and per-series instances of
every other root. -/
theorem C3_witness :
    (([[0, 1], [0, 1], [0, 1], [0, 1], [0, 1], [0, 0], [0, 1]] : List (List Int)).length = 7) ∧
      get_parameters_from_shares [[0, 1], [0, 1], [0, 1], [0, 1], [0, 1], [0, 0], [0, 1]] =
        (List.range 7).flatMap (fun i =>
          (group_elements_by_same_values
            (([[0, 1], [0, 1], [0, 1], [0, 1], [0, 1], [0, 0], [0, 1]] :
              List (List Int)).getD i [])).map
            (fun s => rootsList.getD i [] ++ s)) ∧
      get_parameters_from_shares [[0, 1], [0, 1], [0, 1], [0, 1], [0, 1], [0, 0], [0, 1]] =
        ["dec_0".data, "dec_1".data, "incl_0".data, "incl_1".data, "mu_a_0".data,
          "mu_a_1".data, "mu_d_0".data, "mu_d_1".data, "om_asc_0".data, "om_asc_1".data,
          "px_0_1".data, "ra_0".data, "ra_1".data] ∧
      (get_parameters_from_shares
        [[0, 1], [0, 1], [0, 1], [0, 1], [0, 1], [0, 0], [0, 1]]).count "px_0_1".data = 1 :=
  ⟨by decide,
    (C3_free_parameter_names [[0, 1], [0, 1], [0, 1], [0, 1], [0, 1], [0, 0], [0, 1]]
      (by decide)).1,
    by decide, by decide⟩

lemma find?_name_append (l rest : Table) (p : Str) (hp : p ∈ l.map Prod.fst) :
    (l ++ rest).find? (fun c => c.1 == p) = l.find? (fun c => c.1 == p) := by
  induction l with
  | nil => simp at hp
  | cons c cs ih =>
    rw [List.map_cons] at hp
    by_cases h : (c.1 == p) = true
    · simp only [List.cons_append, List.find?_cons, h]
    · rw [Bool.not_eq_true] at h
      have hp2 : p ∈ cs.map Prod.fst := by
        rcases List.mem_cons.mp hp with h1 | h1
        · exact absurd (beq_iff_eq.mpr h1.symm) (by simp [h])
        · exact h1
      simp only [List.cons_append, List.find?_cons, h]
      exact ih hp2

lemma tlookup_append (l rest : Table) (p : Str) (hp : p ∈ l.map Prod.fst) :
    tlookup (l ++ rest) p = tlookup l p := by
  rw [tlookup, tlookup, find?_name_append l rest p hp]

lemma paramsOf_append_two (front : Table) (c1 c2 : Str × List ℚ) :
    paramsOf (front ++ [c1, c2]) = front.map Prod.fst := by
  rw [paramsOf, List.map_append]
  show ((front.map Prod.fst) ++ [c1.1, c2.1]).dropLast.dropLast = _
  rw [show (front.map Prod.fst) ++ [c1.1, c2.1] =
      ((front.map Prod.fst) ++ [c1.1]) ++ [c2.1] by simp,
    List.dropLast_concat, List.dropLast_concat]

lemma infer_estimates_eq_via_params (t : Table) :
    infer_estimates_from_bilby_results t =
      ReportLine.header :: (paramsOf t).map (fun p =>
        ReportLine.estimate p (sample2median (tlookup t p))
          ((sample2median_range (tlookup t p) 1).2 - sample2median (tlookup t p))
          (sample2median (tlookup t p) - (sample2median_range (tlookup t p) 1).1)) := rfl

/-- Claim C7: the summarizer computes statistics only for the columns before the two
trailing bookkeeping columns; replacing the two trailing columns by any other two
columns leaves the whole report unchanged, and the reported parameter set is exactly
the non-trailing column names. -/
theorem C7_trailing_bookkeeping_columns_ignored (front : Table) (c1 c2 d1 d2 : Str × List ℚ) :
    infer_estimates_from_bilby_results (front ++ [c1, c2]) =
        infer_estimates_from_bilby_results (front ++ [d1, d2]) ∧
      paramsOf (front ++ [c1, c2]) = front.map Prod.fst := by
  refine ⟨?_, paramsOf_append_two front c1 c2⟩
  rw [infer_estimates_eq_via_params, infer_estimates_eq_via_params,
    paramsOf_append_two front c1 c2, paramsOf_append_two front d1 d2]
  refine congrArg _ (List.map_congr_left ?_)
  intro p hp
  rw [tlookup_append front [c1, c2] p hp, tlookup_append front [d1, d2] p hp]

lemma filter_estimates_eq_nil (t : Table) (q : ReportLine → Bool)
    (hq1 : q ReportLine.header = false)
    (hq2 : ∀ p m u lo, q (ReportLine.estimate p m u lo) = false) :
    (infer_estimates_from_bilby_results t).filter q = [] := by
  rw [infer_estimates_eq_via_params, List.filter_cons, hq1]
  simp only [Bool.false_eq_true, if_false]
  rw [List.filter_eq_nil_iff]
  intro l hl
  rcases List.mem_map.mp hl with ⟨p, _, rfl⟩
  simp [hq2]

/-- Claim C6 (amended): the summary report consists of exactly the unit-header line
followed by one estimate line per fitted parameter; it contains no correlation and no
chi-square lines. -/
theorem C6_report_only_header_and_estimates (t : Table) :
    (infer_estimates_from_bilby_results t).filter isCorrLine = [] ∧
      (infer_estimates_from_bilby_results t).filter isChiLine = [] ∧
      (infer_estimates_from_bilby_results t).head? = some ReportLine.header ∧
      (infer_estimates_from_bilby_results t).tail.all isEstimateLine = true ∧
      (infer_estimates_from_bilby_results t).length = 1 + (paramsOf t).length := by
  refine ⟨filter_estimates_eq_nil t isCorrLine rfl (fun p m u lo => rfl),
    filter_estimates_eq_nil t isChiLine rfl (fun p m u lo => rfl), rfl, ?_, ?_⟩
  · rw [infer_estimates_eq_via_params]
    rw [List.tail_cons, List.all_eq_true]
    intro l hl
    rcases List.mem_map.mp hl with ⟨p, _, rfl⟩
    rfl
  · rw [infer_estimates_eq_via_params, List.length_cons, List.length_map]
    omega

/-- Claim C6 counterexample: for a posterior table with two fitted parameters, the report
contains neither a correlation-coefficient line for the pair nor any chi-square or
reduced chi-square line. -/
theorem C6_counterexample_no_corr_no_chisq :
    paramsOf [("px_0".data, ([1, 2, 3] : List ℚ)), ("ra_0".data, [4, 5, 6]),
        ("log_likelihood".data, [0, 0, 0]), ("log_prior".data, [0, 0, 0])] =
      ["px_0".data, "ra_0".data] ∧
      (infer_estimates_from_bilby_results [("px_0".data, [1, 2, 3]), ("ra_0".data, [4, 5, 6]),
          ("log_likelihood".data, [0, 0, 0]), ("log_prior".data, [0, 0, 0])]).filter
        (fun l => isCorrLine l || isChiLine l) = [] := by
  constructor
  · decide
  · rw [filter_estimates_eq_nil _ _ rfl (fun p m u lo => rfl)]

lemma findSome?_estimateFor (t : Table) (p : Str) :
    ∀ ps : List Str, p ∈ ps →
      ((ps.map (fun q =>
        ReportLine.estimate q (sample2median (tlookup t q))
          ((sample2median_range (tlookup t q) 1).2 - sample2median (tlookup t q))
          (sample2median (tlookup t q) - (sample2median_range (tlookup t q) 1).1))).findSome?
        (estimateFor p)) =
      some (sample2median (tlookup t p),
        (sample2median_range (tlookup t p) 1).2 - sample2median (tlookup t p),
        sample2median (tlookup t p) - (sample2median_range (tlookup t p) 1).1) := by
  intro ps
  induction ps with
  | nil => intro hp; simp at hp
  | cons q qs ih =>
    intro hp
    rw [List.map_cons, List.findSome?_cons]
    by_cases h : q = p
    · subst h
      rw [estimateFor, if_pos (by simp)]
    · have hp2 : p ∈ qs := by
        rcases List.mem_cons.mp hp with h1 | h1
        · exact absurd h1.symm h
        · exact h1
      rw [estimateFor, if_neg (by simp [h])]
      exact ih hp2

lemma reportedEntry_eq (t : Table) (p : Str) (hp : p ∈ paramsOf t) :
    reportedEntry t p =
      some (sample2median (tlookup t p),
        (sample2median_range (tlookup t p) 1).2 - sample2median (tlookup t p),
        sample2median (tlookup t p) - (sample2median_range (tlookup t p) 1).1) := by
  rw [reportedEntry, infer_estimates_eq_via_params, List.findSome?_cons]
  exact findSome?_estimateFor t p (paramsOf t) hp

/-- Claim C5 (amended): every fitted parameter column, the ascending-node-angle columns
included, is summarized by the same plain rule: the point estimate is the sample median
and the errors come from the 16th/84th percentile range; no circular wraparound
statistics are applied to om_asc columns. -/
theorem C5_om_asc_summarized_like_any_column (t : Table) (p : Str) (hp : p ∈ paramsOf t) :
    reportedEntry t p =
      some (sample2median (tlookup t p),
        (sample2median_range (tlookup t p) 1).2 - sample2median (tlookup t p),
        sample2median (tlookup t p) - (sample2median_range (tlookup t p) 1).1) :=
  reportedEntry_eq t p hp

/-- Witness for C5: the om_asc column of the concrete table is reported through the
plain median and percentile rule. -/
theorem C5_witness :
    "om_asc_0".data ∈ paramsOf omascTable ∧
      reportedEntry omascTable "om_asc_0".data =
        some (sample2median (tlookup omascTable "om_asc_0".data),
          (sample2median_range (tlookup omascTable "om_asc_0".data) 1).2 -
            sample2median (tlookup omascTable "om_asc_0".data),
          sample2median (tlookup omascTable "om_asc_0".data) -
            (sample2median_range (tlookup omascTable "om_asc_0".data) 1).1) :=
  ⟨by decide, C5_om_asc_summarized_like_any_column omascTable "om_asc_0".data (by decide)⟩

/-- Claim C5 counterexample: for the concrete om_asc column hugging the 0/360 boundary,
the reported point estimate is the plain sample median 180, while the narrowest
68-percent wraparound interval gives 0; the report therefore does not come from the
circular rule and does come from the plain percentile rule used for every column. -/
theorem C5_counterexample_om_asc_plain_median :
    (reportedEntry omascTable "om_asc_0".data).map (fun e => e.1) =
        some (sample2median omascSamples) ∧
      sample2median omascSamples = 180 ∧
      circular68Estimate omascSamples = 0 ∧
      (reportedEntry omascTable "om_asc_0".data).map (fun e => e.1) ≠
        some (circular68Estimate omascSamples) := by
  have hlook : tlookup omascTable "om_asc_0".data = omascSamples := rfl
  have hent := reportedEntry_eq omascTable "om_asc_0".data (by decide)
  have hmed : sample2median omascSamples = 180 := by
    norm_num [sample2median, omascSamples, sortQ, sortBy, insertSortedBy]
  have hcirc : circular68Estimate omascSamples = 0 := by
    norm_num [circular68Estimate, sample2median, omascSamples, sortQ, sortBy, insertSortedBy,
      List.range_succ, List.getD]
  refine ⟨?_, hmed, hcirc, ?_⟩
  · rw [hent, hlook]
    rfl
  · rw [hent, hlook]
    simp [hmed, hcirc]

lemma foldl_add_map {α : Type} (f : α → ℝ) (l : List α) :
    ∀ a : ℝ, l.foldl (fun acc x => acc + f x) a = a + (l.map f).sum := by
  induction l with
  | nil => intro a; simp
  | cons x xs ih =>
    intro a
    rw [List.foldl_cons, ih (a + f x), List.map_cons, List.sum_cons]
    ring

/-- Claim C1 (amended): log_likelihood returns exactly the sum over all measurement
series of -0.5 times the weighted sum of squared residuals of that series, the residual
being the observed RA/DEC concatenation minus the position-model prediction and the
weights the stored per-observation errors; there is no log-error normalization term and
no orbital-decay-rate constraint term. -/
theorem C1_log_likelihood_is_chi_square_sum {T P : Type} [Inhabited T] (refepoch : ℝ)
    (LoD_timing : List T) (LoD_VLBI : List VLBIRecord)
    (positions : ℝ → List ℝ → T → ℕ → P → List ℝ) (parameters : P) :
    log_likelihood refepoch LoD_timing LoD_VLBI positions parameters =
      ((List.range LoD_VLBI.length).map
        (fun i => -0.5 * seriesChi refepoch positions (LoD_timing.getD i default)
          (LoD_VLBI.getD i ⟨[], [], []⟩) i parameters)).sum := by
  rw [log_likelihood,
    foldl_add_map
      (fun i => -0.5 * seriesChi refepoch positions (LoD_timing.getD i default)
        (LoD_VLBI.getD i ⟨[], [], []⟩) i parameters)
      (List.range LoD_VLBI.length) 0]
  ring

/-- Concrete one-series instance for the C1 counterexample: one epoch, observed RA/DEC
concatenation zero, both errors two. -/
noncomputable def exVLBI : VLBIRecord := ⟨[1], [0, 0], [2, 2]⟩

/-- Concrete position model predicting zero RA/DEC offsets. -/
noncomputable def zeroPositions : ℝ → List ℝ → Unit → ℕ → Unit → List ℝ :=
  fun _ _ _ _ _ => [0, 0]

/-- Claim C1 counterexample: on a series with zero residuals and errors equal to two,
log_likelihood returns 0, while the specified formula with its log-error normalization
term returns -(2 log 2), which is nonzero; the code omits the normalization term. -/
theorem C1_counterexample_missing_log_error_term :
    log_likelihood (0 : ℝ) [()] [exVLBI] zeroPositions () = 0 ∧
      claimedLogLikelihood (0 : ℝ) [()] [exVLBI] zeroPositions () = -(2 * Real.log 2) ∧
      log_likelihood (0 : ℝ) [()] [exVLBI] zeroPositions () ≠
        claimedLogLikelihood (0 : ℝ) [()] [exVLBI] zeroPositions () := by
  have hcode : log_likelihood (0 : ℝ) [()] [exVLBI] zeroPositions () = 0 := by
    norm_num [log_likelihood, seriesChi, seriesResiduals, exVLBI, zeroPositions,
      List.range_succ]
  have hspec : claimedLogLikelihood (0 : ℝ) [()] [exVLBI] zeroPositions () =
      -(2 * Real.log 2) := by
    norm_num [claimedLogLikelihood, seriesChi, seriesResiduals, exVLBI, zeroPositions,
      List.range_succ]
    ring
  refine ⟨hcode, hspec, ?_⟩
  rw [hcode, hspec]
  have hlog : 0 < Real.log 2 := Real.log_pos (by norm_num)
  intro h
  linarith

lemma classifyArgs_none_of_violation (args : List Str) :
    ∀ pmparins parfiles, (∃ a ∈ args, namingViolation a = true) →
      classifyArgs args pmparins parfiles = none := by
  induction args with
  | nil =>
    intro _ _ h
    rcases h with ⟨a, ha, _⟩
    simp at ha
  | cons arg rest ih =>
    intro ps fs h
    rw [classifyArgs]
    by_cases hv : namingViolation arg = true
    · rw [if_pos hv]
    · rw [if_neg hv]
      have h2 : ∃ a ∈ rest, namingViolation a = true := by
        rcases h with ⟨a, ha, hav⟩
        rcases List.mem_cons.mp ha with h1 | h1
        · subst h1; exact absurd hav hv
        · exact ⟨a, h1, hav⟩
      by_cases hp : strContains pmparinToken arg = true
      · rw [if_pos hp]; exact ih _ _ h2
      · rw [if_neg hp]
        by_cases hq : (List.isSuffixOf parToken arg || arg.isEmpty) = true
        · rw [if_pos hq]; exact ih _ _ h2
        · rw [if_neg hq]; exact ih _ _ h2

/-- Claim C8: if any positional file argument both contains .pmpar.in and ends in .par,
or the classified pmparin and parfile counts differ, then simulate ends in a printed
abort, never reaching data loading, likelihood construction or the sampler. -/
theorem C8_config_errors_abort {V T : Type} (env : Env V T) (refepoch : ℚ)
    (initsfile pmparin parfile : Str) (args : List Str)
    (sharesKw : Option (List (List Int)))
    (h : (∃ a ∈ pmparin :: parfile :: args, namingViolation a = true) ∨
      (∃ ps fs, classifyArgs (pmparin :: parfile :: args) [] [] = some (ps, fs) ∧
        ps.length ≠ fs.length)) :
    ∃ msg, simulate env refepoch initsfile pmparin parfile args sharesKw =
      SimOutcome.abortPrint msg := by
  by_cases hinit : env.fileExists initsfile = false
  · exact ⟨initsMissingMsg initsfile, by rw [simulate, if_pos hinit]⟩
  · rcases h with h | ⟨ps, fs, hcl, hne⟩
    · refine ⟨namingMsg, ?_⟩
      rw [simulate, if_neg hinit, classifyArgs_none_of_violation _ [] [] h]
    · refine ⟨countsMsg, ?_⟩
      rw [simulate, if_neg hinit, hcl]
      simp [hne]

/-- Witness for C8: a run whose first positional argument violates the naming convention
ends in a printed abort. -/
theorem C8_witness :
    (∃ a ∈ ("a.pmpar.in.par".data :: [] :: ([] : List Str)), namingViolation a = true) ∧
      ∃ msg, simulate allFilesEnv 0 "a.inits".data "a.pmpar.in.par".data [] [] none =
        SimOutcome.abortPrint msg :=
  ⟨by decide,
    C8_config_errors_abort allFilesEnv 0 "a.inits".data "a.pmpar.in.par".data [] [] none
      (Or.inl (by decide))⟩

lemma loadParfiles_error {V T : Type} (env : Env V T) :
    ∀ fs f, loadParfiles env fs = Except.error f →
      f ∈ fs ∧ f ≠ [] ∧ env.fileExists f = false := by
  intro fs
  induction fs with
  | nil =>
    intro f h
    simp [loadParfiles] at h
  | cons pf rest ih =>
    intro f h
    rw [loadParfiles] at h
    by_cases he : pf.isEmpty = true
    · rw [if_pos he] at h
      cases hr : loadParfiles env rest with
      | error g =>
        rw [hr] at h
        simp at h
        subst h
        exact ⟨by simp [(ih g hr).1], (ih g hr).2.1, (ih g hr).2.2⟩
      | ok l =>
        rw [hr] at h
        simp at h
    · rw [if_neg he] at h
      by_cases hx : env.fileExists pf = true
      · rw [if_pos hx] at h
        cases hr : loadParfiles env rest with
        | error g =>
          rw [hr] at h
          simp at h
          subst h
          exact ⟨by simp [(ih g hr).1], (ih g hr).2.1, (ih g hr).2.2⟩
        | ok l =>
          rw [hr] at h
          simp at h
      · rw [if_neg hx] at h
        simp at h
        subst h
        refine ⟨by simp, ?_, by simpa using hx⟩
        intro hnil
        exact he (by simp [hnil])

lemma loadParfiles_ok_forall {V T : Type} (env : Env V T) :
    ∀ fs l, loadParfiles env fs = Except.ok l →
      ∀ f ∈ fs, f ≠ [] → env.fileExists f = true := by
  intro fs
  induction fs with
  | nil => intro l _ f hf; simp at hf
  | cons pf rest ih =>
    intro l h f hf hfne
    rw [loadParfiles] at h
    by_cases he : pf.isEmpty = true
    · rw [if_pos he] at h
      rcases List.mem_cons.mp hf with h1 | h1
      · subst h1
        exact absurd (by simpa using he) hfne
      · cases hr : loadParfiles env rest with
        | error g => rw [hr] at h; simp at h
        | ok l2 => exact ih l2 hr f h1 hfne
    · rw [if_neg he] at h
      by_cases hx : env.fileExists pf = true
      · rw [if_pos hx] at h
        rcases List.mem_cons.mp hf with h1 | h1
        · subst h1; exact hx
        · cases hr : loadParfiles env rest with
          | error g => rw [hr] at h; simp at h
          | ok l2 => exact ih l2 hr f h1 hfne
      · rw [if_neg hx] at h
        simp at h

lemma loadPmparins_error {V T : Type} (env : Env V T) :
    ∀ ps p, loadPmparins env ps = Except.error p →
      p ∈ ps ∧ env.fileExists p = false := by
  intro ps
  induction ps with
  | nil =>
    intro p h
    simp [loadPmparins] at h
  | cons q rest ih =>
    intro p h
    rw [loadPmparins] at h
    by_cases hx : env.fileExists q = true
    · rw [if_pos hx] at h
      cases hr : loadPmparins env rest with
      | error g =>
        rw [hr] at h
        simp at h
        subst h
        exact ⟨by simp [(ih g hr).1], (ih g hr).2⟩
      | ok l =>
        rw [hr] at h
        simp at h
    · rw [if_neg hx] at h
      simp at h
      subst h
      exact ⟨by simp, by simpa using hx⟩

lemma loadPmparins_ok_forall {V T : Type} (env : Env V T) :
    ∀ ps l, loadPmparins env ps = Except.ok l →
      ∀ p ∈ ps, env.fileExists p = true := by
  intro ps
  induction ps with
  | nil => intro l _ p hp; simp at hp
  | cons q rest ih =>
    intro l h p hp
    rw [loadPmparins] at h
    by_cases hx : env.fileExists q = true
    · rw [if_pos hx] at h
      rcases List.mem_cons.mp hp with h1 | h1
      · subst h1; exact hx
      · cases hr : loadPmparins env rest with
        | error g => rw [hr] at h; simp at h
        | ok l2 => exact ih l2 hr p h1
    · rw [if_neg hx] at h
      simp at h

/-- Claim C9: in a run whose arguments classify cleanly with matching counts, a missing
input file (the initsfile, a pmparin file, or a non-empty parfile) makes the run end,
before the sampler stage, naming a missing input file: the initsfile through the printed
abort message, the data files through the file-open error. -/
theorem C9_missing_file_aborts_named {V T : Type} (env : Env V T) (refepoch : ℚ)
    (initsfile pmparin parfile : Str) (args : List Str)
    (sharesKw : Option (List (List Int))) (ps fs : List Str)
    (hclass : classifyArgs (pmparin :: parfile :: args) [] [] = some (ps, fs))
    (hcount : ps.length = fs.length)
    (hmiss : env.fileExists initsfile = false ∨ (∃ p ∈ ps, env.fileExists p = false) ∨
      (∃ f ∈ fs, f ≠ [] ∧ env.fileExists f = false)) :
    ∃ f, isInputFile initsfile ps fs f ∧ env.fileExists f = false ∧
      namesFile (simulate env refepoch initsfile pmparin parfile args sharesKw) f := by
  have hc2 : ¬ ps.length ≠ fs.length := fun hx => hx hcount
  by_cases hinit : env.fileExists initsfile = false
  · refine ⟨initsfile, Or.inl rfl, hinit, ?_⟩
    have hsim : simulate env refepoch initsfile pmparin parfile args sharesKw =
        SimOutcome.abortPrint (initsMissingMsg initsfile) := by
      rw [simulate, if_pos hinit]
    rw [hsim]
    show initsfile <:+: initsMissingMsg initsfile
    exact ⟨[], " does not exist; aborting".data, by rw [initsMissingMsg]; simp⟩
  · cases hpar : loadParfiles env fs with
    | error f =>
      have hf := loadParfiles_error env fs f hpar
      refine ⟨f, Or.inr (Or.inr ⟨hf.1, hf.2.1⟩), hf.2.2, ?_⟩
      have hsim : simulate env refepoch initsfile pmparin parfile args sharesKw =
          SimOutcome.exception f := by
        rw [simulate, if_neg hinit, hclass]
        simp [hc2, hpar]
      rw [hsim]
      show f = f
      rfl
    | ok timing =>
      cases hpm : loadPmparins env ps with
      | error p =>
        have hp := loadPmparins_error env ps p hpm
        refine ⟨p, Or.inr (Or.inl hp.1), hp.2, ?_⟩
        have hsim : simulate env refepoch initsfile pmparin parfile args sharesKw =
            SimOutcome.exception p := by
          rw [simulate, if_neg hinit, hclass]
          simp [hc2, hpar, hpm]
        rw [hsim]
        show p = p
        rfl
      | ok vlbi =>
        exfalso
        rcases hmiss with h | ⟨p, hpmem, hpe⟩ | ⟨f, hfmem, hfne, hfe⟩
        · exact hinit h
        · rw [loadPmparins_ok_forall env ps vlbi hpm p hpmem] at hpe
          exact absurd hpe (by simp)
        · rw [loadParfiles_ok_forall env fs timing hpar f hfmem hfne] at hfe
          exact absurd hfe (by simp)

/-- Witness for C9: a run whose single pmparin file is missing ends naming that file. -/
theorem C9_witness :
    ∃ f, isInputFile "a.inits".data ["b.pmpar.in".data] [[]] f ∧
      missingOneEnv.fileExists f = false ∧
      namesFile (simulate missingOneEnv 0 "a.inits".data "b.pmpar.in".data [] [] none) f :=
  C9_missing_file_aborts_named missingOneEnv 0 "a.inits".data "b.pmpar.in".data [] [] none
    ["b.pmpar.in".data] [[]] (by decide) rfl
    (Or.inr (Or.inl ⟨"b.pmpar.in".data, by decide, by decide⟩))

/-- Claim C10: a simulate run without a shares keyword that reaches the sampler uses the
default sharing matrix: per-series tags 0..N-1 for the declination and right-ascension
rows, and the all-zero shared row for inclination, both proper motions, the
ascending-node angle and the parallax. -/
theorem C10_default_shares {V T : Type} (env : Env V T) (refepoch : ℚ)
    (initsfile pmparin parfile : Str) (args : List Str) (ps fs : List Str)
    (sh : List (List Int)) (tm : List (Option T)) (vl : List V)
    (hrun : simulate env refepoch initsfile pmparin parfile args none =
      SimOutcome.sampled ps fs sh tm vl) :
    sh = [(List.range ps.length).map Int.ofNat, List.replicate ps.length 0,
      List.replicate ps.length 0, List.replicate ps.length 0, List.replicate ps.length 0,
      List.replicate ps.length 0, (List.range ps.length).map Int.ofNat] := by
  rw [simulate] at hrun
  by_cases hinit : env.fileExists initsfile = false
  · rw [if_pos hinit] at hrun
    exact absurd hrun (by simp)
  · rw [if_neg hinit] at hrun
    cases hcl : classifyArgs (pmparin :: parfile :: args) [] [] with
    | none =>
      rw [hcl] at hrun
      exact absurd hrun (by simp)
    | some pr =>
      obtain ⟨ps2, fs2⟩ := pr
      rw [hcl] at hrun
      by_cases hne : ps2.length ≠ fs2.length
      · simp [hne] at hrun
      · cases hpar : loadParfiles env fs2 with
        | error f => simp [hne, hpar] at hrun
        | ok timing =>
          cases hpm : loadPmparins env ps2 with
          | error p => simp [hne, hpar, hpm] at hrun
          | ok vlbi =>
            simp [hne, hpar, hpm] at hrun
            obtain ⟨h1, _, h3, _, _⟩ := hrun
            rw [← h3, ← h1, defaultShares]

/-- Witness for C10: a one-series run without a shares keyword reaches the sampler with
the default sharing matrix for one series. -/
theorem C10_witness :
    simulate allFilesEnv 0 "a.inits".data "a.pmpar.in".data [] [] none =
        SimOutcome.sampled ["a.pmpar.in".data] [[]]
          [[0], [0], [0], [0], [0], [0], [0]] [none] [()] ∧
      ([[0], [0], [0], [0], [0], [0], [0]] : List (List Int)) =
        [(List.range (["a.pmpar.in".data] : List Str).length).map Int.ofNat,
          List.replicate 1 0, List.replicate 1 0, List.replicate 1 0, List.replicate 1 0,
          List.replicate 1 0,
          (List.range (["a.pmpar.in".data] : List Str).length).map Int.ofNat] :=
  ⟨by decide,
    C10_default_shares allFilesEnv 0 "a.inits".data "a.pmpar.in".data [] []
      ["a.pmpar.in".data] [[]] [[0], [0], [0], [0], [0], [0], [0]] [none] [()] (by decide)⟩
